import Mathlib

/-!
Verification of the RLM engineering loop in opencode_rlm/run.py
(plan, patch, validate).  The Python functions are shallowly embedded as
total Lean functions over lists of characters; external effects
(the completion provider, the patch(1) tool, subprocess execution and the
file system) are inputs to the model.
-/

/-- The left curly brace character (written by code point to keep the
source free of literal braces outside strings). -/
def lbrace : Char := Char.ofNat 123

/-- The right curly brace character. -/
def rbrace : Char := Char.ofNat 125

/-- The backtick character. -/
def btick : Char := Char.ofNat 96

/-- ASCII whitespace as recognised by Python's str.strip and the regex
class backslash-s (the model is restricted to ASCII; Python additionally
treats some Unicode code points as whitespace, which no claim exercises). -/
def pyWs (c : Char) : Bool :=
  c = ' ' || c = '\t' || c = '\n' || c = '\r' || c = Char.ofNat 11 || c = Char.ofNat 12

/-- Python text.strip(): drop leading and trailing whitespace. -/
def pyStrip (s : List Char) : List Char :=
  ((s.dropWhile pyWs).reverse.dropWhile pyWs).reverse

/-- The triple-backtick fence marker. -/
def tq : List Char := [btick, btick, btick]

/-- Whether the closing part of the fence pattern matches here: optional
whitespace followed by a fence marker (the backslash-s-star backtick-fence
tail of the regex in run.py line 58). -/
def closeOk (u : List Char) : Bool :=
  tq.isPrefixOf (u.dropWhile pyWs)

/-- The lazy part of the regex: expand the bracketed-anything-star
non-greedily until a right brace whose continuation satisfies closeOk.
Returns the consumed characters including that right brace. -/
def lazyCapture : List Char → Option (List Char)
  | [] => none
  | c :: rest =>
    if c = rbrace ∧ closeOk rest = true then some [rbrace]
    else
      match lazyCapture rest with
      | some m => some (c :: m)
      | none => none

/-- After the fence marker and the optional json info string: greedy
whitespace, a left brace, then the lazy body up to a validly closed right
brace.  Returns the capture group. -/
def matchAtTail (rest : List Char) : Option (List Char) :=
  match rest.dropWhile pyWs with
  | c :: r =>
    if c = lbrace then
      match lazyCapture r with
      | some m => some (lbrace :: m)
      | none => none
    else none
  | [] => none

/-- Attempt to match the fence regex of run.py line 58 anchored at the
start of s: a fence marker, the optional literal json, greedy whitespace,
a left brace, the lazy body, a right brace, whitespace, a fence marker.
Returns the capture group (from the left brace to the right brace). -/
def matchAt (s : List Char) : Option (List Char) :=
  if tq.isPrefixOf s then
    let s1 := s.drop 3
    let s2 := if ("json".data).isPrefixOf s1 then s1.drop 4 else s1
    matchAtTail s2
  else none

/-- re.search over the pattern: try matchAt at every position, leftmost
match wins. -/
def reSearch : List Char → Option (List Char)
  | [] => none
  | c :: t =>
    match matchAt (c :: t) with
    | some r => some r
    | none => reSearch t

/-- Python: the triple-backtick substring test (quoted fence in text). -/
def containsTq : List Char → Bool
  | [] => false
  | c :: t => tq.isPrefixOf (c :: t) || containsTq t

/-- Lines 56-60 of run.py: if the text contains a fence marker, replace it
by the regex capture when the regex matches, else keep the text. -/
def mdStrip (text : List Char) : List Char :=
  if containsTq text then
    match reSearch text with
    | some g => g
    | none => text
  else text

/-- Lines 64-75 of run.py: scan from the first left brace tracking the
brace nesting depth exactly as the Python loop does (increment on a left
brace, decrement on a right brace, stop when the depth returns to zero);
return the candidate substring, if any.  The depth is an integer as in
Python. -/
def depthScan : List Char → Int → Option (List Char)
  | [], _ => none
  | c :: rest, depth =>
    if c = lbrace then (depthScan rest (depth + 1)).map (fun m => c :: m)
    else if c = rbrace then
      if depth - 1 = 0 then some [c]
      else (depthScan rest (depth - 1)).map (fun m => c :: m)
    else (depthScan rest depth).map (fun m => c :: m)

/-- Lines 55-70 of run.py up to the json.loads call: strip, drop a
markdown fence, find the first left brace and scan to the balanced close;
the result is the candidate string handed to json.loads. -/
def braceCandidate (raw : List Char) : Option (List Char) :=
  let text := mdStrip (pyStrip raw)
  match text.dropWhile (fun c => c != lbrace) with
  | [] => none
  | s => depthScan s 0

/-! ## A model of Python json.loads

The source calls the standard-library json.loads on the candidate string.
The model below parses standard JSON (objects, arrays, strings with
escapes, numbers, the literals true, false, null, and Python's default
extensions NaN, Infinity, -Infinity).  Numbers keep their lexeme; no claim
inspects numeric values.  It is total: parse failure is none, which models
json.JSONDecodeError being caught at run.py line 73. -/

inductive JValue where
  | null : JValue
  | bool (b : Bool) : JValue
  | num (lexeme : List Char) : JValue
  | str (s : List Char) : JValue
  | arr (elems : List JValue) : JValue
  | obj (fields : List (List Char × JValue)) : JValue

/-- JSON whitespace (RFC 8259): space, tab, newline, carriage return. -/
def jsonWsChar (c : Char) : Bool :=
  c = ' ' || c = '\t' || c = '\n' || c = '\r'

def isDigitCh (c : Char) : Bool := 48 ≤ c.toNat && c.toNat ≤ 57

def hexVal (c : Char) : Option Nat :=
  if 48 ≤ c.toNat ∧ c.toNat ≤ 57 then some (c.toNat - 48)
  else if 97 ≤ c.toNat ∧ c.toNat ≤ 102 then some (c.toNat - 87)
  else if 65 ≤ c.toNat ∧ c.toNat ≤ 70 then some (c.toNat - 55)
  else none

/-- Parse the body of a JSON string after the opening quote; returns the
decoded content and the remainder after the closing quote.  Escapes are
decoded; a backslash-u escape becomes the character of its code point
(surrogate-pair combination is not modelled; no claim exercises it).
Fuel bounds the recursion; one unit per consumed character suffices. -/
def parseStringBody : Nat → List Char → Option (List Char × List Char)
  | 0, _ => none
  | _ + 1, [] => none
  | fuel + 1, c :: rest =>
    if c = '"' then some ([], rest)
    else if c = '\\' then
      match rest with
      | [] => none
      | e :: rest2 =>
        if e = '"' then (parseStringBody fuel rest2).map (fun p => ('"' :: p.1, p.2))
        else if e = '\\' then (parseStringBody fuel rest2).map (fun p => ('\\' :: p.1, p.2))
        else if e = '/' then (parseStringBody fuel rest2).map (fun p => ('/' :: p.1, p.2))
        else if e = 'b' then (parseStringBody fuel rest2).map (fun p => (Char.ofNat 8 :: p.1, p.2))
        else if e = 'f' then (parseStringBody fuel rest2).map (fun p => (Char.ofNat 12 :: p.1, p.2))
        else if e = 'n' then (parseStringBody fuel rest2).map (fun p => ('\n' :: p.1, p.2))
        else if e = 'r' then (parseStringBody fuel rest2).map (fun p => ('\r' :: p.1, p.2))
        else if e = 't' then (parseStringBody fuel rest2).map (fun p => ('\t' :: p.1, p.2))
        else if e = 'u' then
          match rest2 with
          | a :: b :: c2 :: d :: rest3 =>
            match hexVal a, hexVal b, hexVal c2, hexVal d with
            | some ha, some hb, some hc, some hd =>
              (parseStringBody fuel rest3).map
                (fun p => (Char.ofNat (((ha * 16 + hb) * 16 + hc) * 16 + hd) :: p.1, p.2))
            | _, _, _, _ => none
          | _ => none
        else none
    else if c.toNat < 32 then none
    else (parseStringBody fuel rest).map (fun p => (c :: p.1, p.2))

/-- Parse a JSON number starting at s; returns the lexeme and the rest. -/
def parseNumber (s : List Char) : Option (List Char × List Char) :=
  let split1 : List Char × List Char :=
    match s with
    | c :: t => if c = '-' then ([c], t) else ([], s)
    | [] => ([], s)
  let neg := split1.1
  let s1 := split1.2
  match s1 with
  | [] => none
  | c :: t =>
    if c = '0' then
      someNum neg [c] t
    else if isDigitCh c then
      someNum neg (c :: t.takeWhile isDigitCh) (t.dropWhile isDigitCh)
    else none
where
  someNum (neg intp : List Char) (afterInt : List Char) : Option (List Char × List Char) :=
    let fracSplit : List Char × List Char :=
      match afterInt with
      | c :: u =>
        if c = '.' then
          if (u.takeWhile isDigitCh).isEmpty then ([], afterInt)
          else (c :: u.takeWhile isDigitCh, u.dropWhile isDigitCh)
        else ([], afterInt)
      | [] => ([], afterInt)
    let fracOk : Bool :=
      match afterInt with
      | c :: u => !(c = '.' && (u.takeWhile isDigitCh).isEmpty)
      | [] => true
    if fracOk then
      let frac := fracSplit.1
      let afterFrac := fracSplit.2
      match afterFrac with
      | c :: u =>
        if c = 'e' ∨ c = 'E' then
          let expBody : List Char × List Char :=
            match u with
            | d :: v => if d = '+' ∨ d = '-' then ([d], v) else ([], u)
            | [] => ([], u)
          let ds := expBody.2.takeWhile isDigitCh
          if ds.isEmpty then none
          else some (neg ++ intp ++ frac ++ (c :: expBody.1 ++ ds), expBody.2.dropWhile isDigitCh)
        else some (neg ++ intp ++ frac, afterFrac)
      | [] => some (neg ++ intp ++ frac, afterFrac)
    else none

/-- Member loop of a JSON object, after the opening brace and having
ruled out an immediate close.  pv parses one value (a smaller parseVal). -/
def parseMembersLoop (pv : List Char → Option (JValue × List Char)) :
    Nat → List Char → List (List Char × JValue) → Option (JValue × List Char)
  | 0, _, _ => none
  | fuel + 1, s, acc =>
    match s.dropWhile jsonWsChar with
    | [] => none
    | c :: rest =>
      if c = '"' then
        match parseStringBody (rest.length + 1) rest with
        | none => none
        | some (key, r1) =>
          match r1.dropWhile jsonWsChar with
          | [] => none
          | c2 :: r3 =>
            if c2 = ':' then
              match pv r3 with
              | none => none
              | some (v, r4) =>
                match r4.dropWhile jsonWsChar with
                | [] => none
                | c3 :: r6 =>
                  if c3 = ',' then parseMembersLoop pv fuel r6 (acc ++ [(key, v)])
                  else if c3 = rbrace then some (JValue.obj (acc ++ [(key, v)]), r6)
                  else none
            else none
      else none

/-- Object body after the opening brace: empty object or the member loop. -/
def parseObjAfterBrace (pv : List Char → Option (JValue × List Char))
    (s : List Char) : Option (JValue × List Char) :=
  match s.dropWhile jsonWsChar with
  | [] => none
  | c :: rest =>
    if c = rbrace then some (JValue.obj [], rest)
    else parseMembersLoop pv (s.length + 1) (c :: rest) []

/-- Element loop of a JSON array, after the opening bracket and having
ruled out an immediate close. -/
def parseElemsLoop (pv : List Char → Option (JValue × List Char)) :
    Nat → List Char → List JValue → Option (JValue × List Char)
  | 0, _, _ => none
  | fuel + 1, s, acc =>
    match pv s with
    | none => none
    | some (v, r1) =>
      match r1.dropWhile jsonWsChar with
      | [] => none
      | c :: r2 =>
        if c = ',' then parseElemsLoop pv fuel r2 (acc ++ [v])
        else if c = ']' then some (JValue.arr (acc ++ [v]), r2)
        else none

/-- Array body after the opening bracket. -/
def parseArrAfterBracket (pv : List Char → Option (JValue × List Char))
    (s : List Char) : Option (JValue × List Char) :=
  match s.dropWhile jsonWsChar with
  | [] => none
  | c :: rest =>
    if c = ']' then some (JValue.arr [], rest)
    else parseElemsLoop pv (s.length + 1) (c :: rest) []

/-- One JSON value.  Fuel decreases once per nesting level; the top-level
caller passes length-plus-one which always suffices since each level
consumes at least one character. -/
def parseVal : Nat → List Char → Option (JValue × List Char)
  | 0, _ => none
  | fuel + 1, s =>
    let s1 := s.dropWhile jsonWsChar
    match s1 with
    | [] => none
    | c :: rest =>
      if c = lbrace then parseObjAfterBrace (parseVal fuel) rest
      else if c = '[' then parseArrAfterBracket (parseVal fuel) rest
      else if c = '"' then
        (parseStringBody (rest.length + 1) rest).map (fun p => (JValue.str p.1, p.2))
      else if ("true".data).isPrefixOf s1 then some (JValue.bool true, s1.drop 4)
      else if ("false".data).isPrefixOf s1 then some (JValue.bool false, s1.drop 5)
      else if ("null".data).isPrefixOf s1 then some (JValue.null, s1.drop 4)
      else if ("NaN".data).isPrefixOf s1 then some (JValue.num ("NaN".data), s1.drop 3)
      else if ("Infinity".data).isPrefixOf s1 then some (JValue.num ("Infinity".data), s1.drop 8)
      else if ("-Infinity".data).isPrefixOf s1 then some (JValue.num ("-Infinity".data), s1.drop 9)
      else (parseNumber s1).map (fun p => (JValue.num p.1, p.2))

/-- Model of json.loads: parse one value and require only whitespace to
remain.  none models json.JSONDecodeError. -/
def jsonLoads (s : List Char) : Option JValue :=
  match parseVal (s.length + 1) s with
  | some (v, rest) => if (rest.dropWhile jsonWsChar).isEmpty then some v else none
  | none => none

/-- run.py lines 53-75, the whole of extract-json: candidate scan then
json.loads; returning none models both the no-candidate paths and the
caught decode error. -/
def extractJson (raw : List Char) : Option JValue :=
  (braceCandidate raw).bind jsonLoads

/-! ## Python truthiness and dict access over JValue -/

/-- Is a number lexeme a Python falsy zero (0, -0, 0.0, 0e5, ...)?  The
mantissa (sign, integer and fraction digits before any exponent) contains
no nonzero digit.  NaN and the infinities are truthy. -/
def numFalsy (lexeme : List Char) : Bool :=
  (lexeme.takeWhile (fun c => !(c = 'e' || c = 'E'))).all
    (fun c => c = '0' || c = '-' || c = '.')

/-- Python truthiness of a JSON-derived value. -/
def pyTruthy : JValue → Bool
  | JValue.null => false
  | JValue.bool b => b
  | JValue.num lex => !numFalsy lex
  | JValue.str s => !s.isEmpty
  | JValue.arr xs => !xs.isEmpty
  | JValue.obj fs => !fs.isEmpty

/-- Python dict.get with default None: the last binding wins, matching
insertion semantics under duplicate keys.  The plans and patches handled
by run.py are always dicts; on a non-object value Python would raise,
which no reachable call does. -/
def pyGet (v : JValue) (key : List Char) : Option JValue :=
  match v with
  | JValue.obj fs => fs.foldl (fun acc kv => if kv.1 = key then some kv.2 else acc) none
  | _ => none

/-! ## Loop Controller: planning decision (run.py lines 225-239) -/

/-- Truthiness of plan.get("error"): absent gives None which is falsy. -/
def errTruthy (v : JValue) : Bool :=
  match pyGet v ("error".data) with
  | some e => pyTruthy e
  | none => false

/-- Lines 225-231: the run aborts at planning when the extracted plan is
None, falsy (Python: an empty dict), or its error field is truthy. -/
def planAborts (responseText : List Char) : Bool :=
  match extractJson responseText with
  | none => true
  | some plan => !pyTruthy plan || errTruthy plan

/-- The synthetic milestone of run.py line 236. -/
def syntheticMilestone (goal : List Char) : JValue :=
  JValue.obj [("id".data, JValue.str ("m1".data)),
              ("title".data, JValue.str ("Implement".data)),
              ("order".data, JValue.num ("1".data)),
              ("scope_summary".data, JValue.str goal)]

/-- Lines 234-236: milestones default to the empty list when the field is
absent or falsy, and a single synthetic milestone replaces an empty list.
A truthy non-list milestones value would make Python raise inside sorted,
outside the plan schema; the model maps it to the empty list. -/
def milestonesOf (plan : JValue) (goal : List Char) : List JValue :=
  let got : List JValue :=
    match pyGet plan ("milestones".data) with
    | some (JValue.arr xs) => xs
    | _ => []
  if got.isEmpty then [syntheticMilestone goal] else got

/-- Schema guard for the milestones field: absent, falsy, or a list.  In
Python a truthy non-list value raises before the loop starts. -/
def milestonesWellTyped (plan : JValue) : Bool :=
  match pyGet plan ("milestones".data) with
  | some (JValue.arr _) => true
  | some v => !pyTruthy v
  | none => true

/-! ## Verification Runner (run.py lines 112-157)

Subprocess execution is external: the model takes the per-command process
results as input, indexed by position in the command list. -/

/-- Outcome of one subprocess.run call: it completed with captured output
and an exit status, or it raised TimeoutExpired. -/
inductive ProcResult where
  | completed (stdout stderr : List Char) (returncode : Int) : ProcResult
  | timedOut : ProcResult

/-- Line 118: per-command timeout, max 10 (budget floordiv count), with a
default of 60 for an empty command list. -/
def perCmdTimeout (budgetSeconds : Nat) (count : Nat) : Nat :=
  if count ≠ 0 then max 10 (budgetSeconds / count) else 60

/-- The truncation marker prepended at line 134. -/
def truncMarker : List Char := "... (truncated)\n".data

/-- Lines 131-134 and the slice at line 139: the log excerpt of a
completed command, from the concatenated stdout and stderr. -/
def logExcerptOf (out : List Char) (returncode : Int) : List Char :=
  let le := if out.length > 2048 then out.drop (out.length - 2048) else out
  let le2 := if returncode ≠ 0 ∧ out.length > 2048 then truncMarker ++ le else le
  le2.take 2048

/-- One element of the results list of _run_validation. -/
structure CmdOutcome where
  command : List Char
  pass : Bool
  exitCode : Option Int
  logExcerpt : List Char
  failureSummary : Option (List Char)

/-- Lines 120-149: build the outcome of one command from its process
result. -/
def mkOutcome (cmd : List Char) : ProcResult → CmdOutcome
  | ProcResult.completed stdout stderr rc =>
    { command := cmd
      pass := rc = 0
      exitCode := some rc
      logExcerpt := logExcerptOf (stdout ++ stderr) rc
      failureSummary := if rc = 0 then none else some (("Exit code ".data) ++ (toString rc).data) }
  | ProcResult.timedOut =>
    { command := cmd
      pass := false
      exitCode := none
      logExcerpt := "(command timed out)".data
      failureSummary := "Command timed out.".data }

/-- The per-command loop, consuming process results in order. -/
def runCmds (proc : Nat → ProcResult) : List (List Char) → Nat → List CmdOutcome
  | [], _ => []
  | cmd :: rest, i => mkOutcome cmd (proc i) :: runCmds proc rest (i + 1)

/-- The tuple returned by _run_validation. -/
structure ValidationResult where
  overall : Bool
  results : List CmdOutcome
  suggested : List Char
  snippetIds : List (List Char)

/-- run.py lines 112-157 (_run_validation): run every command, aggregate
with all(), and suggest done or fix.  The first failing result is
computed at line 154 for diagnostics but does not influence any output;
snippet ids are always empty. -/
def runValidation (proc : Nat → ProcResult) (budgetSeconds : Nat)
    (commands : List (List Char)) : ValidationResult :=
  let _timeout := perCmdTimeout budgetSeconds commands.length
  let results := runCmds proc commands 0
  let overall := results.all (fun r => r.pass)
  let suggested := if !overall ∧ !results.isEmpty then "fix".data else "done".data
  { overall := overall, results := results, suggested := suggested, snippetIds := [] }

/-! ## Change Applier (run.py lines 78-109)

The patch(1) subprocess is external: the model takes its per-invocation
results as input, indexed by invocation order.  File-system effects
(directory creation, the patch invocation) are recorded as events. -/

/-- Result of one invocation of the patch tool: it exited with a status,
or the invocation itself failed (TimeoutExpired or FileNotFoundError),
which line 102 silently swallows. -/
inductive PatchToolResult where
  | exit (code : Int) : PatchToolResult
  | invokeFailed : PatchToolResult
deriving DecidableEq

/-- File-system effects of _apply_diffs, in order.  mkdirParents models
target.parent.mkdir(parents=True, exist_ok=True); invokePatch models the
patch -p1 -f -s -d repo_root -i patchfile subprocess together with its
result. -/
inductive ApplyEvent where
  | mkdirParents (dir : List (List Char)) : ApplyEvent
  | invokePatch (path : List Char) (result : PatchToolResult) : ApplyEvent

/-- Split a path string on slashes, dropping empty and single-dot
segments as pathlib's PurePath does.  Double-dot segments are kept:
pathlib does not resolve them. -/
def splitSlashGo (cur : List Char) : List Char → List (List Char)
  | [] => [cur.reverse]
  | c :: rest =>
    if c = '/' then cur.reverse :: splitSlashGo [] rest
    else splitSlashGo (c :: cur) rest

def splitSlash (s : List Char) : List (List Char) :=
  (splitSlashGo [] s).filter (fun seg => !seg.isEmpty && seg != ['.'])

/-- pathlib: repo_root slash path.  An absolute path replaces the root
entirely; a relative one is appended componentwise. -/
def joinPath (root : List (List Char)) (p : List Char) : List (List Char) :=
  if p.head? = some '/' then splitSlash p else root ++ splitSlash p

/-- Syntactic double-dot resolution as the operating system performs it
when a directory is actually created: a double-dot pops the previous
component when one exists. -/
def normSegs (acc : List (List Char)) : List (List Char) → List (List Char)
  | [] => acc.reverse
  | seg :: rest =>
    if seg = ['.', '.'] then
      match acc with
      | [] => normSegs [seg] rest
      | _ :: accTail => normSegs accTail rest
    else normSegs (seg :: acc) rest

/-- Lines 82-85: read path and unified_diff from the item dict and apply
the truthiness guard (continue on a falsy path or falsy diff).  The
ProposedChange schema types both fields as strings; a truthy non-string
value would make Python raise at line 86, which the model excludes. -/
def itemFields (item : JValue) : Option (List Char × List Char) :=
  match pyGet item ("path".data) with
  | none => none
  | some pv =>
    let dv := (pyGet item ("unified_diff".data)).getD (JValue.str [])
    if pyTruthy pv ∧ pyTruthy dv then
      match pv, dv with
      | JValue.str ps, JValue.str ds => some (ps, ds)
      | _, _ => none
    else none

/-- run.py lines 78-109 (_apply_diffs): iterate the items; a falsy path
or diff is skipped without consuming a patch invocation; otherwise the
parent directories of repo_root slash path are created, the patch tool is
invoked, and the path is recorded as changed exactly when the tool exits
zero.  Writing and removing the temporary patch file are not observable
to any claim and are not recorded.  Returns the changed paths and the
event trace. -/
def applyDiffsGo (ptool : Nat → PatchToolResult) (root : List (List Char)) :
    List JValue → Nat → List (List Char) × List ApplyEvent
  | [], _ => ([], [])
  | item :: rest, k =>
    match itemFields item with
    | none => applyDiffsGo ptool root rest k
    | some (path, _diff) =>
      let target := joinPath root path
      let res := ptool k
      let tail := applyDiffsGo ptool root rest (k + 1)
      ((if res = PatchToolResult.exit 0 then path :: tail.1 else tail.1),
       ApplyEvent.mkdirParents target.dropLast :: ApplyEvent.invokePatch path res :: tail.2)

def applyDiffs (ptool : Nat → PatchToolResult) (root : List (List Char))
    (diffs : List JValue) : List (List Char) × List ApplyEvent :=
  applyDiffsGo ptool root diffs 0

/-- The path of a successful patch invocation, for reading the changed
list off the event trace. -/
def successPath : ApplyEvent → Option (List Char)
  | ApplyEvent.invokePatch p res => if res = PatchToolResult.exit 0 then some p else none
  | _ => none

/-! ## Loop Controller (run.py lines 176-302)

Completion-provider responses and child-process results are external
inputs, consumed in program order. -/

/-- External inputs of one attempt: whether rlm.completion raised, the
response text otherwise, and the patch-tool and subprocess results used
by that attempt in order. -/
structure AttemptWorld where
  exn : Bool
  text : List Char
  ptool : Nat → PatchToolResult
  proc : Nat → ProcResult

/-- Inputs and configuration of one run_loop call. -/
structure RunConfig where
  goal : List Char
  repoRoot : List (List Char)
  planExn : Bool
  planText : List Char
  env : Nat → AttemptWorld
  validateCommands : List (List Char)
  maxIterations : Int

/-- Observable state of the loop: whether the run returned early with an
error, the value of the iterations counter, the number of patch
completions requested (equivalently, of attempt bodies entered), and the
accumulated changed files. -/
structure LoopSt where
  aborted : Bool
  iters : Nat
  calls : Nat
  changed : List (List Char)

/-- Line 272 guard: continue when the patch response is unusable (no
JSON, falsy dict, or truthy error field). -/
def patchBad : Option JValue → Bool
  | none => true
  | some pd => !pyTruthy pd || errTruthy pd

/-- Line 275: diffs default to the empty list when absent or falsy.  A
truthy non-list value would raise inside _apply_diffs, outside the patch
schema; the model maps it to the empty list. -/
def diffsListOf (pd : JValue) : List JValue :=
  match pyGet pd ("diffs".data) with
  | some (JValue.arr xs) => xs
  | _ => []

/-- run.py lines 254-290: the attempt loop of one milestone.  The fuel is
range(max_iterations); the iterations counter increments first and the
body runs only while the global counter stays within the bound (line
256).  Each body consumes one completion (indexed by calls); an exception
aborts the run, an unusable response retries, an empty diff list stops
the milestone, and otherwise the diffs are applied and validated, with
overall pass or a done or adjust_tests suggestion stopping the
milestone. -/
def attemptsLoop (cfg : RunConfig) :
    Nat → Nat → Nat → List (List Char) → LoopSt
  | 0, it, ca, ch => { aborted := false, iters := it, calls := ca, changed := ch }
  | fuel + 1, it, ca, ch =>
    let it' := it + 1
    if (it' : Int) > cfg.maxIterations then
      { aborted := false, iters := it', calls := ca, changed := ch }
    else
      let w := cfg.env ca
      if w.exn then { aborted := true, iters := it', calls := ca + 1, changed := ch }
      else
        let ca' := ca + 1
        let pd := extractJson w.text
        if patchBad pd then attemptsLoop cfg fuel it' ca' ch
        else
          let diffs := diffsListOf (pd.getD (JValue.obj []))
          if diffs.isEmpty then
            { aborted := false, iters := it', calls := ca', changed := ch }
          else
            let chNow := (applyDiffs w.ptool cfg.repoRoot diffs).1
            let ch' := ch ++ chNow
            let v := runValidation w.proc 120 cfg.validateCommands
            if v.overall then
              { aborted := false, iters := it', calls := ca', changed := ch' }
            else if v.suggested = "done".data ∨ v.suggested = "adjust_tests".data then
              { aborted := false, iters := it', calls := ca', changed := ch' }
            else attemptsLoop cfg fuel it' ca' ch'

/-- Integer sort key of a milestone: m.get("order", 0), reading the
integer part of the numeric lexeme.  Milestone order values are numbers
by the plan schema; a non-numeric value would make Python's sorted
raise. -/
def lexIntVal (lex : List Char) : Int :=
  let digits := (lex.dropWhile (fun c => c = '-')).takeWhile isDigitCh
  let mag : Int := digits.foldl (fun acc c => acc * 10 + (c.toNat - 48)) 0
  if lex.head? = some '-' then -mag else mag

def orderKey (m : JValue) : Int :=
  match pyGet m ("order".data) with
  | some (JValue.num lex) => lexIntVal lex
  | _ => 0

/-- Stable insertion keeping existing elements with an equal-or-smaller
key in front; folding it over the list in order models Python's stable
sorted. -/
def insByKey (x : JValue) : List JValue → List JValue
  | [] => [x]
  | y :: ys => if orderKey y ≤ orderKey x then y :: insByKey x ys else x :: y :: ys

def pySorted (l : List JValue) : List JValue :=
  l.foldl (fun acc x => insByKey x acc) []

/-- run.py line 250: the milestone loop, threading the global counters. -/
def milestonesLoop (cfg : RunConfig) :
    List JValue → Nat → Nat → List (List Char) → LoopSt
  | [], it, ca, ch => { aborted := false, iters := it, calls := ca, changed := ch }
  | _m :: rest, it, ca, ch =>
    let r := attemptsLoop cfg cfg.maxIterations.toNat it ca ch
    if r.aborted then r else milestonesLoop cfg rest r.iters r.calls r.changed

/-- First-seen deduplication, as list(dict.fromkeys(...)) at line 298. -/
def pyDedupGo (seen : List (List Char)) : List (List Char) → List (List Char)
  | [] => []
  | x :: rest =>
    if x ∈ seen then pyDedupGo seen rest else x :: pyDedupGo (x :: seen) rest

def pyDedup (l : List (List Char)) : List (List Char) := pyDedupGo [] l

/-- run.py lines 176-302 (run_loop): plan, then the milestone and attempt
loops.  A provider failure at planning or an unusable plan aborts before
any attempt; milestones are sorted by order value and default to one
synthetic milestone. -/
def runLoop (cfg : RunConfig) : LoopSt :=
  if cfg.planExn then { aborted := true, iters := 0, calls := 0, changed := [] }
  else if planAborts cfg.planText then
    { aborted := true, iters := 0, calls := 0, changed := [] }
  else
    let plan := (extractJson cfg.planText).getD (JValue.obj [])
    let ms := pySorted (milestonesOf plan cfg.goal)
    milestonesLoop cfg ms 0 0 []

/-! ## Definitions used by the theorems -/

/-- Declarative characterisation of one anchored match of the fence
regex: the text starts with a fence marker, an optional literal json, a
whitespace run, a left brace, the lazily-matched body, a right brace and
a valid close; the capture is the brace-delimited span, and the body is
the shortest one admitting a valid close. -/
def MatchHead (s c : List Char) : Prop :=
  ∃ j w m u, (j = [] ∨ j = "json".data) ∧ (∀ x ∈ w, pyWs x = true) ∧
    s = tq ++ j ++ w ++ lbrace :: m ++ rbrace :: u ∧ closeOk u = true ∧
    c = lbrace :: m ++ [rbrace] ∧
    (∀ m2 u2, m ++ rbrace :: u = m2 ++ rbrace :: u2 → closeOk u2 = true →
      m.length ≤ m2.length)

/-- Split a text at its first fence marker: the part before it and the
part after it. -/
def fenceSplit : List Char → Option (List Char × List Char)
  | [] => none
  | c :: t =>
    if tq.isPrefixOf (c :: t) then some ([], (c :: t).drop 3)
    else (fenceSplit t).map (fun p => (c :: p.1, p.2))

/-- The shortest prefix ending at a right brace, inclusive. -/
def takeToClose : List Char → Option (List Char)
  | [] => none
  | c :: t =>
    if c = rbrace then some [c]
    else (takeToClose t).map (fun m => c :: m)

/-- Modelled from the spec wording of claim C4 (spec section 4.1 step 2):
fences are delimited by consecutive fence-marker pairs; find the first
fence whose body (after an optional json info string and whitespace)
begins with a left brace, and capture non-greedily from that brace up to
the first right brace inside the fence body, which by construction lies
before the first closing fence; when no such capturable fence exists the
extractor is expected to keep the original text. -/
def specFenceContentGo : Nat → List Char → Option (List Char)
  | 0, _ => none
  | fuel + 1, s =>
    match s with
    | [] => none
    | c :: t =>
      if tq.isPrefixOf (c :: t) then
        match fenceSplit ((c :: t).drop 3) with
        | none => none
        | some (body, rest) =>
          let body1 := if ("json".data).isPrefixOf body then body.drop 4 else body
          let body2 := body1.dropWhile pyWs
          match body2 with
          | b :: inner =>
            if b = lbrace then (takeToClose inner).map (fun m => lbrace :: m)
            else specFenceContentGo fuel rest
          | [] => specFenceContentGo fuel rest
      else specFenceContentGo fuel t

def specFenceContent (s : List Char) : Option (List Char) :=
  specFenceContentGo (s.length + 1) s

/-- A ProposedChange as the patch schema produces it: a dict with string
path and unified_diff fields. -/
def mkChange (p d : List Char) : JValue :=
  JValue.obj [("path".data, JValue.str p), ("unified_diff".data, JValue.str d)]

/-- A text whose only complete fence has body left-brace a, while the
lazy capture of the source regex runs past that fence's close. -/
def c4input : List Char :=
  tq ++ lbrace :: 'a' :: (tq ++ ' ' :: 'x' :: rbrace :: tq)

/-- A well-formed fenced response: x, then a json fence holding a tiny
object. -/
def c4good : List Char :=
  'x' :: (tq ++ "json".data ++ ' ' :: lbrace :: 'a' :: rbrace :: ' ' :: tq)

/-! ## Theorems -/

/-- C8: the Verification Runner's overall pass flag is the logical AND of
the per-command pass flags, and the empty command list yields overall
pass true with an empty outcome list (and the done action). -/
theorem C8_overall_pass_is_and (proc : Nat → ProcResult) (budget : Nat)
    (commands : List (List Char)) :
    (runValidation proc budget commands).overall
      = (runValidation proc budget commands).results.all (fun r => r.pass) ∧
    runValidation proc budget []
      = { overall := true, results := [], suggested := "done".data, snippetIds := [] } :=
  ⟨rfl, rfl⟩

/-- C7: the Verification Runner's suggested next action is the string
done exactly when overall pass holds and the string fix otherwise; no
other action value is produced. -/
theorem C7_suggested_action (proc : Nat → ProcResult) (budget : Nat)
    (commands : List (List Char)) :
    (runValidation proc budget commands).suggested
      = (if (runValidation proc budget commands).overall then "done".data else "fix".data) := by
  unfold runValidation
  cases commands with
  | nil => rfl
  | cons c rest =>
    dsimp only [runCmds]
    by_cases h : (mkOutcome c (proc 0) :: runCmds proc rest 1).all (fun r => r.pass) <;>
      simp [h]

/-- Helper: the excerpt of a long successful command is the bare final
2048 characters. -/
theorem logExcerpt_long_zero (out : List Char) (h : out.length > 2048) :
    logExcerptOf out 0 = out.drop (out.length - 2048) := by
  unfold logExcerptOf
  dsimp only
  rw [if_pos h]
  rw [if_neg (show ¬((0 : Int) ≠ 0 ∧ out.length > 2048) from fun hc => hc.1 rfl)]
  exact List.take_of_length_le (by rw [List.length_drop]; omega)

/-- Helper: the excerpt of a long failing command is the marker followed
by the final 2048 characters except their last 16, because the slice to
2048 is applied after the 16-character marker is prepended. -/
theorem logExcerpt_long_nonzero (out : List Char) (rc : Int)
    (h : out.length > 2048) (hrc : rc ≠ 0) :
    logExcerptOf out rc = truncMarker ++ (out.drop (out.length - 2048)).take 2032 := by
  unfold logExcerptOf
  dsimp only
  rw [if_pos h, if_pos (And.intro hrc h), List.take_append_eq_append_take]
  norm_num [truncMarker]

/-- C1 as stated is false: with 2049 characters of combined output and
exit status 0 the excerpt is not the marker-prefixed tail the claim
requires (no marker is prepended for a passing command; moreover the
marker-prefixed form would be 2064 characters long). -/
theorem C1_counterexample :
    logExcerptOf (List.replicate 2049 'a') 0 ≠
      truncMarker ++ (List.replicate 2049 'a').drop (2049 - 2048) := by
  intro hEq
  have hm : truncMarker.length = 16 := rfl
  have h0 := logExcerpt_long_zero (List.replicate 2049 'a')
    (by simp only [List.length_replicate]; omega)
  rw [h0] at hEq
  have h2 := congrArg List.length hEq
  rw [List.length_drop, List.length_replicate, List.length_append, List.length_drop,
    List.length_replicate, hm] at h2
  omega

/-- C1 amended: for output longer than 2048 characters the excerpt is
always exactly 2048 characters; for a passing command it is the last
2048 characters with no marker, and for a failing command it is the
16-character truncation marker followed by the last 2048 characters of
output with their final 16 characters cut off by the trailing slice. -/
theorem C1_amended_log_excerpt (out : List Char) (rc : Int) (h : out.length > 2048) :
    (logExcerptOf out rc).length = 2048 ∧
    (rc = 0 → logExcerptOf out rc = out.drop (out.length - 2048)) ∧
    (rc ≠ 0 → logExcerptOf out rc = truncMarker ++ (out.drop (out.length - 2048)).take 2032) := by
  have hm : truncMarker.length = 16 := rfl
  by_cases hrc : rc = 0
  · subst hrc
    have h0 := logExcerpt_long_zero out h
    refine ⟨?_, fun _ => h0, fun hne => absurd rfl hne⟩
    rw [h0, List.length_drop]; omega
  · have h1 := logExcerpt_long_nonzero out rc h hrc
    refine ⟨?_, fun h0 => absurd h0 hrc, fun _ => h1⟩
    rw [h1, List.length_append, List.length_take, List.length_drop, hm]
    omega

/-- Witness for C1 amended at 2049 output characters and exit status 0. -/
theorem C1_amended_witness :
    (List.replicate 2049 'b').length > 2048 ∧
    logExcerptOf (List.replicate 2049 'b') 0
      = (List.replicate 2049 'b').drop ((List.replicate 2049 'b').length - 2048) := by
  have hlen : (List.replicate 2049 'b').length > 2048 := by
    simp only [List.length_replicate]; omega
  exact ⟨hlen, (C1_amended_log_excerpt (List.replicate 2049 'b') 0 hlen).2.1 rfl⟩

/-- Helper: a change with non-empty string path and diff passes the
truthiness guard. -/
theorem itemFields_pos (c e : Char) (p d : List Char) :
    itemFields (mkChange (c :: p) (e :: d)) = some (c :: p, e :: d) := by
  simp [itemFields, mkChange, pyGet, pyTruthy]

/-- Helper: an empty diff body is skipped by the guard. -/
theorem itemFields_empty_diff (p : List Char) : itemFields (mkChange p []) = none := by
  simp [itemFields, mkChange, pyGet, pyTruthy]

/-- Helper: an empty path is skipped by the guard. -/
theorem itemFields_empty_path (d : List Char) : itemFields (mkChange [] d) = none := by
  simp [itemFields, mkChange, pyGet, pyTruthy]

/-- Helper: the changed list read off the event trace. -/
theorem applyDiffsGo_changed_eq (ptool : Nat → PatchToolResult) (root : List (List Char)) :
    ∀ diffs k, (applyDiffsGo ptool root diffs k).1
      = (applyDiffsGo ptool root diffs k).2.filterMap successPath := by
  intro diffs
  induction diffs with
  | nil => intro k; rfl
  | cons item rest ih =>
    intro k
    simp only [applyDiffsGo]
    cases hf : itemFields item with
    | none => exact ih k
    | some pr =>
      obtain ⟨path, diff⟩ := pr
      dsimp only
      by_cases hres : ptool k = PatchToolResult.exit 0 <;>
        simp [successPath, hres, ih (k + 1)]

/-- Helper: changed paths are a sublist of the guarded input paths. -/
theorem applyDiffsGo_changed_sublist (ptool : Nat → PatchToolResult) (root : List (List Char)) :
    ∀ diffs k, List.Sublist ((applyDiffsGo ptool root diffs k).1)
      (diffs.filterMap (fun item => (itemFields item).map Prod.fst)) := by
  intro diffs
  induction diffs with
  | nil => intro k; simp [applyDiffsGo]
  | cons item rest ih =>
    intro k
    simp only [applyDiffsGo, List.filterMap_cons]
    cases hf : itemFields item with
    | none => exact ih k
    | some pr =>
      obtain ⟨path, diff⟩ := pr
      dsimp only [Option.map_some]
      by_cases hres : ptool k = PatchToolResult.exit 0
      · rw [if_pos hres]
        exact List.Sublist.cons₂ path (ih (k + 1))
      · rw [if_neg hres]
        exact List.Sublist.cons path (ih (k + 1))

/-- C9: the Change Applier returns exactly the paths whose patch
invocation reported success (exit 0), in input order (a sublist of the
input paths); a change with an empty path or empty patch body is skipped
entirely, consuming no patch invocation; and the empty input yields the
empty changed list.  The model is a total function, reflecting that
individual failures (non-zero exit, timeout, missing tool) never
raise. -/
theorem C9_apply_diffs_contract (ptool : Nat → PatchToolResult) (root : List (List Char)) :
    applyDiffs ptool root [] = ([], []) ∧
    (∀ diffs k, (applyDiffsGo ptool root diffs k).1
        = (applyDiffsGo ptool root diffs k).2.filterMap successPath) ∧
    (∀ diffs k, List.Sublist ((applyDiffsGo ptool root diffs k).1)
        (diffs.filterMap (fun item => (itemFields item).map Prod.fst))) ∧
    (∀ p d rest k,
      applyDiffsGo ptool root (mkChange p [] :: rest) k = applyDiffsGo ptool root rest k ∧
      applyDiffsGo ptool root (mkChange [] d :: rest) k = applyDiffsGo ptool root rest k) := by
  refine ⟨rfl, applyDiffsGo_changed_eq ptool root, applyDiffsGo_changed_sublist ptool root,
    fun p d rest k => ⟨?_, ?_⟩⟩
  · simp only [applyDiffsGo, itemFields_empty_diff]
  · simp only [applyDiffsGo, itemFields_empty_path]

/-- C10: a change with non-empty path and body first creates all missing
parent directories of repo_root slash path (the mkdirParents event on the
syntactic parent, before the patch invocation), and with a double-dot
path such as ../outside/f.txt the created directory resolves outside the
repository root, so directory creation is not confined to it. -/
theorem C10_mkdir_parent_dirs :
    (∀ (ptool : Nat → PatchToolResult) (root : List (List Char)) (c e : Char)
       (p d : List Char) (rest : List JValue) (k : Nat),
      (applyDiffsGo ptool root (mkChange (c :: p) (e :: d) :: rest) k).2
        = ApplyEvent.mkdirParents ((joinPath root (c :: p)).dropLast)
            :: ApplyEvent.invokePatch (c :: p) (ptool k)
            :: (applyDiffsGo ptool root rest (k + 1)).2) ∧
    normSegs [] ((joinPath ["repo".data] ("../outside/f.txt".data)).dropLast)
      = ["outside".data] ∧
    ¬ (["repo".data] <+: normSegs [] ((joinPath ["repo".data] ("../outside/f.txt".data)).dropLast)) := by
  refine ⟨?_, by decide, by decide⟩
  intro ptool root c e p d rest k
  simp only [applyDiffsGo, itemFields_pos]

/-- C2 as stated is false: the planning response consisting of an empty
JSON object extracts successfully to a structured object carrying no
error marker, yet the controller aborts, because the guard also rejects
a falsy (empty) dict. -/
theorem C2_counterexample :
    extractJson ("\x7b\x7d".data) = some (JValue.obj []) ∧
    errTruthy (JValue.obj []) = false ∧
    planAborts ("\x7b\x7d".data) = true :=
  ⟨rfl, rfl, rfl⟩

/-- C2 amended: the run proceeds past planning exactly when the response
extracts to a non-empty (Python-truthy) object whose error field is
absent or falsy; and whenever the milestones field is absent, falsy, or a
list, the milestone list is never empty, an empty or missing one being
replaced by the single synthetic milestone. -/
theorem C2_amended_plan_gate :
    (∀ text, planAborts text = false ↔
        ∃ plan, extractJson text = some plan ∧ pyTruthy plan = true ∧ errTruthy plan = false) ∧
    (∀ plan goal, milestonesWellTyped plan = true → milestonesOf plan goal ≠ []) := by
  constructor
  · intro text
    unfold planAborts
    cases h : extractJson text with
    | none => simp
    | some plan => simp [h]
  · intro plan goal _h
    unfold milestonesOf
    split
    · dsimp only
      split
      · simp
      · rename_i hne
        simpa [List.isEmpty_iff] using hne
    · simp

/-- Witness for C2 amended: a one-field plan passes the gate, and the
empty-object plan still yields the synthetic milestone. -/
theorem C2_amended_witness :
    planAborts ("\x7b\"a\": 1\x7d".data) = false ∧
    milestonesOf (JValue.obj []) ("g".data) ≠ [] := by
  constructor
  · exact (C2_amended_plan_gate.1 _).mpr
      ⟨JValue.obj [("a".data, JValue.num "1".data)], rfl, rfl, rfl⟩
  · exact C2_amended_plan_gate.2 (JValue.obj []) ("g".data) rfl

/-- Helper: through the attempt loop, the number of completions consumed
never exceeds the iterations counter nor the configured maximum, and the
counter only grows. -/
theorem attemptsLoop_invariant (cfg : RunConfig) :
    ∀ fuel it ca ch, ca ≤ it → ca ≤ cfg.maxIterations.toNat →
      (attemptsLoop cfg fuel it ca ch).calls ≤ (attemptsLoop cfg fuel it ca ch).iters ∧
      (attemptsLoop cfg fuel it ca ch).calls ≤ cfg.maxIterations.toNat ∧
      it ≤ (attemptsLoop cfg fuel it ca ch).iters := by
  intro fuel
  induction fuel with
  | zero =>
    intro it ca ch h1 h2
    exact ⟨h1, h2, Nat.le_refl it⟩
  | succ fuel ih =>
    intro it ca ch h1 h2
    simp only [attemptsLoop]
    split
    · dsimp only
      refine ⟨?_, ?_, ?_⟩ <;> omega
    · rename_i hguard
      have hit : it + 1 ≤ cfg.maxIterations.toNat := by omega
      split
      · dsimp only
        refine ⟨?_, ?_, ?_⟩ <;> omega
      · split
        · obtain ⟨a1, a2, a3⟩ := ih (it + 1) (ca + 1) ch (by omega) (by omega)
          exact ⟨a1, a2, by omega⟩
        · split
          · dsimp only
            refine ⟨?_, ?_, ?_⟩ <;> omega
          · split
            · dsimp only
              refine ⟨?_, ?_, ?_⟩ <;> omega
            · split
              · dsimp only
                refine ⟨?_, ?_, ?_⟩ <;> omega
              · obtain ⟨a1, a2, a3⟩ := ih (it + 1) (ca + 1)
                  (ch ++ (applyDiffs (cfg.env ca).ptool cfg.repoRoot
                    (diffsListOf ((extractJson (cfg.env ca).text).getD (JValue.obj [])))).1)
                  (by omega) (by omega)
                exact ⟨a1, a2, by omega⟩

/-- Helper: the bound propagates through the milestone loop. -/
theorem milestonesLoop_invariant (cfg : RunConfig) :
    ∀ ms it ca ch, ca ≤ it → ca ≤ cfg.maxIterations.toNat →
      (milestonesLoop cfg ms it ca ch).calls ≤ cfg.maxIterations.toNat := by
  intro ms
  induction ms with
  | nil => intro it ca ch _h1 h2; exact h2
  | cons m rest ih =>
    intro it ca ch h1 h2
    simp only [milestonesLoop]
    have h := attemptsLoop_invariant cfg cfg.maxIterations.toNat it ca ch h1 h2
    split
    · exact h.2.1
    · exact ih _ _ _ h.1 h.2.1

/-- C3: across the whole run the Loop Controller enters at most
max_iterations attempt bodies (each body requests one patch completion;
calls counts them), the bound being one global counter shared by all
milestones rather than a per-milestone budget.  Termination of the
milestone and attempt loops is witnessed by the model itself, which is a
total structurally-recursive function over the finite milestone list and
the finite range of attempts. -/
theorem C3_global_iteration_bound (cfg : RunConfig) :
    (runLoop cfg).calls ≤ cfg.maxIterations.toNat := by
  unfold runLoop
  split
  · exact Nat.zero_le _
  · split
    · exact Nat.zero_le _
    · exact milestonesLoop_invariant cfg _ 0 0 [] (Nat.le_refl 0) (Nat.zero_le _)

/-- Helper: the boolean prefix test as an existential. -/
theorem prefixOf_exists (p : List Char) : ∀ s, p.isPrefixOf s = true ↔ ∃ r, s = p ++ r := by
  induction p with
  | nil => intro s; simp [List.isPrefixOf]
  | cons a p ih =>
    intro s
    cases s with
    | nil => simp [List.isPrefixOf]
    | cons b t =>
      simp only [List.isPrefixOf, Bool.and_eq_true, beq_iff_eq, ih, List.cons_append,
        List.cons.injEq]
      constructor
      · rintro ⟨hab, r, hr⟩
        exact ⟨r, hab.symm, hr⟩
      · rintro ⟨r, hba, hr⟩
        exact ⟨hba.symm, r, hr⟩

/-- Helper: a decomposition at a character that occurs in neither the
second prefix nor the second suffix is unique. -/
theorem split_at_unique (c : Char) :
    ∀ (b a x y : List Char), a ++ c :: x = b ++ c :: y → c ∉ b → c ∉ y → a = b ∧ x = y := by
  intro b
  induction b with
  | nil =>
    intro a x y h _hb hy
    cases a with
    | nil => simpa using h
    | cons d as =>
      simp only [List.cons_append, List.nil_append, List.cons.injEq] at h
      exact absurd (h.2 ▸ List.mem_append_right as (List.mem_cons_self c x)) hy
  | cons d bs ih =>
    intro a x y h hb hy
    cases a with
    | nil =>
      simp only [List.nil_append, List.cons_append, List.cons.injEq] at h
      exact absurd (h.1 ▸ List.mem_cons_self d bs) (h.1 ▸ hb)
    | cons e as =>
      simp only [List.cons_append, List.cons.injEq] at h
      obtain ⟨he, htail⟩ := h
      obtain ⟨h1, h2⟩ := ih as x y htail (fun hm => hb (List.mem_cons_of_mem d hm)) hy
      exact ⟨by rw [he, h1], h2⟩

/-- Helper: the lazy scan fails on text with no right brace. -/
theorem lazyCapture_none_of_no_rbrace :
    ∀ s : List Char, (∀ c ∈ s, c ≠ rbrace) → lazyCapture s = none := by
  intro s
  induction s with
  | nil => intro _; rfl
  | cons c t ih =>
    intro h
    have hc : c ≠ rbrace := h c (List.mem_cons_self c t)
    simp only [lazyCapture]
    rw [ih (fun x hx => h x (List.mem_cons_of_mem c hx)),
      if_neg (show ¬(c = rbrace ∧ closeOk t = true) from fun hand => hc hand.1)]

/-- Helper: when the body and the continuation are free of right braces,
the lazy scan succeeds exactly when the close is valid. -/
theorem lazyCapture_mid (u : List Char) (hu : ∀ c ∈ u, c ≠ rbrace) :
    ∀ mid : List Char, (∀ c ∈ mid, c ≠ rbrace) →
      lazyCapture (mid ++ rbrace :: u)
        = if closeOk u = true then some (mid ++ [rbrace]) else none := by
  intro mid
  induction mid with
  | nil =>
    intro _
    by_cases h : closeOk u = true
    · simp [lazyCapture, h]
    · simp [lazyCapture, lazyCapture_none_of_no_rbrace u hu, h]
  | cons c mid ih =>
    intro hmid
    have hc : c ≠ rbrace := hmid c (List.mem_cons_self c mid)
    have ih2 := ih (fun x hx => hmid x (List.mem_cons_of_mem c hx))
    rw [List.cons_append]
    simp only [lazyCapture]
    rw [ih2, if_neg (show ¬(c = rbrace ∧ closeOk (mid ++ rbrace :: u) = true) from
      fun hand => hc hand.1)]
    by_cases h : closeOk u = true <;> simp [h]

/-- Helper: soundness of the lazy scan: it returns the shortest body
admitting a valid close. -/
theorem lazyCapture_sound :
    ∀ s r : List Char, lazyCapture s = some r →
      ∃ m u, s = m ++ rbrace :: u ∧ r = m ++ [rbrace] ∧ closeOk u = true ∧
        ∀ m2 u2, s = m2 ++ rbrace :: u2 → closeOk u2 = true → m.length ≤ m2.length := by
  intro s
  induction s with
  | nil => intro r h; cases h
  | cons c t ih =>
    intro r h
    by_cases hc : c = rbrace ∧ closeOk t = true
    · rw [lazyCapture, if_pos hc] at h
      obtain ⟨rfl⟩ := Option.some.inj h
      exact ⟨[], t, by simp [hc.1], rfl, hc.2, fun m2 u2 _ _ => Nat.zero_le _⟩
    · rw [lazyCapture, if_neg hc] at h
      cases hm : lazyCapture t with
      | none => rw [hm] at h; cases h
      | some m' =>
        rw [hm] at h
        obtain ⟨rfl⟩ := Option.some.inj h
        obtain ⟨m, u, ht, hr, hcl, hmin⟩ := ih m' hm
        refine ⟨c :: m, u, by rw [List.cons_append, ht], by rw [List.cons_append, hr], hcl, ?_⟩
        intro m2 u2 heq hclose2
        cases m2 with
        | nil =>
          simp only [List.nil_append, List.cons.injEq] at heq
          exact absurd ⟨heq.1, heq.2 ▸ hclose2⟩ hc
        | cons d m2' =>
          simp only [List.cons_append, List.cons.injEq] at heq
          exact Nat.succ_le_succ (hmin m2' u2 heq.2 hclose2)

/-- Helper: completeness of the lazy scan: a valid close makes it
succeed. -/
theorem lazyCapture_isSome_of (u : List Char) (h : closeOk u = true) :
    ∀ m : List Char, ∃ r, lazyCapture (m ++ rbrace :: u) = some r := by
  intro m
  induction m with
  | nil => exact ⟨[rbrace], by simp [lazyCapture, h]⟩
  | cons c m ih =>
    obtain ⟨r, hr⟩ := ih
    by_cases hc : c = rbrace ∧ closeOk (m ++ rbrace :: u) = true
    · refine ⟨[rbrace], ?_⟩
      rw [List.cons_append]
      simp only [lazyCapture]
      rw [if_pos hc]
    · refine ⟨c :: r, ?_⟩
      rw [List.cons_append]
      simp only [lazyCapture]
      rw [hr, if_neg hc]

/-- Helper: soundness of the post-marker part of the match. -/
theorem matchAtTail_sound (rest cap : List Char) (h : matchAtTail rest = some cap) :
    ∃ w m u, (∀ x ∈ w, pyWs x = true) ∧ rest = w ++ lbrace :: (m ++ rbrace :: u) ∧
      closeOk u = true ∧ cap = lbrace :: m ++ [rbrace] ∧
      (∀ m2 u2, m ++ rbrace :: u = m2 ++ rbrace :: u2 → closeOk u2 = true →
        m.length ≤ m2.length) := by
  unfold matchAtTail at h
  cases hs3 : rest.dropWhile pyWs with
  | nil => rw [hs3] at h; cases h
  | cons c1 r =>
    rw [hs3] at h
    dsimp only at h
    by_cases hc1 : c1 = lbrace
    · rw [if_pos hc1] at h
      cases hlz : lazyCapture r with
      | none => rw [hlz] at h; cases h
      | some m =>
        rw [hlz] at h
        obtain ⟨rfl⟩ := Option.some.inj h
        obtain ⟨mm, u, hr, hm, hcl, hmin⟩ := lazyCapture_sound r m hlz
        refine ⟨rest.takeWhile pyWs, mm, u,
          fun x hx => List.mem_takeWhile_imp hx, ?_, hcl, by rw [hm]; rfl, ?_⟩
        · conv_lhs => rw [← List.takeWhile_append_dropWhile pyWs rest]
          rw [hs3, hc1, hr]
        · intro m2 u2 heq hcl2
          exact hmin m2 u2 (hr.trans heq) hcl2
    · rw [if_neg hc1] at h; cases h

/-- Helper: completeness of the post-marker part of the match. -/
theorem matchAtTail_isSome (w m u : List Char) (hw : ∀ x ∈ w, pyWs x = true)
    (hcl : closeOk u = true) :
    ∃ r, matchAtTail (w ++ lbrace :: (m ++ rbrace :: u)) = some r := by
  have hlb : pyWs lbrace = false := rfl
  have hdw : (w ++ lbrace :: (m ++ rbrace :: u)).dropWhile pyWs
      = lbrace :: (m ++ rbrace :: u) := by
    rw [List.dropWhile_append_of_pos (by simpa using hw)]
    simp [List.dropWhile_cons, hlb]
  unfold matchAtTail
  rw [hdw]
  dsimp only
  rw [if_pos rfl]
  obtain ⟨r, hr⟩ := lazyCapture_isSome_of u hcl m
  rw [hr]
  exact ⟨lbrace :: r, rfl⟩

/-- Helper: soundness of one anchored regex match. -/
theorem matchAt_sound (s cap : List Char) (h : matchAt s = some cap) : MatchHead s cap := by
  unfold matchAt at h
  by_cases htq : tq.isPrefixOf s = true
  case neg => rw [if_neg htq] at h; cases h
  rw [if_pos htq] at h
  dsimp only at h
  obtain ⟨r0, hr0⟩ := (prefixOf_exists tq s).mp htq
  have hd3 : s.drop 3 = r0 := by rw [hr0]; exact List.drop_left' rfl
  rw [hd3] at h
  by_cases hj : ("json".data).isPrefixOf r0 = true
  · rw [if_pos hj] at h
    obtain ⟨r1, hr1⟩ := (prefixOf_exists _ r0).mp hj
    have hd4 : r0.drop 4 = r1 := by rw [hr1]; exact List.drop_left' rfl
    rw [hd4] at h
    obtain ⟨w, m, u, hw, hrest, hcl, hcap, hmin⟩ := matchAtTail_sound r1 cap h
    exact ⟨"json".data, w, m, u, Or.inr rfl, hw,
      by rw [hr0, hr1, hrest]; simp [List.append_assoc], hcl, hcap, hmin⟩
  · rw [if_neg hj] at h
    obtain ⟨w, m, u, hw, hrest, hcl, hcap, hmin⟩ := matchAtTail_sound r0 cap h
    exact ⟨[], w, m, u, Or.inl rfl, hw,
      by rw [hr0, hrest]; simp [List.append_assoc], hcl, hcap, hmin⟩

/-- Helper: completeness of one anchored regex match. -/
theorem matchAt_isSome_of_matchHead (s cap : List Char) (h : MatchHead s cap) :
    ∃ r, matchAt s = some r := by
  obtain ⟨j, w, m, u, hj, hw, hs, hcl, _hcap, _hmin⟩ := h
  have hjchars : ("json".data) = 'j' :: 's' :: 'o' :: 'n' :: [] := rfl
  have htq : tq.isPrefixOf s = true :=
    (prefixOf_exists tq s).mpr
      ⟨j ++ (w ++ lbrace :: (m ++ rbrace :: u)), by rw [hs]; simp [List.append_assoc]⟩
  unfold matchAt
  rw [if_pos htq]
  dsimp only
  have hs2 : s = tq ++ (j ++ (w ++ lbrace :: (m ++ rbrace :: u))) := by
    rw [hs]; simp [List.append_assoc]
  have hd3 : s.drop 3 = j ++ (w ++ lbrace :: (m ++ rbrace :: u)) := by
    rw [hs2]; exact List.drop_left' rfl
  rw [hd3]
  cases hj with
  | inl hjn =>
    subst hjn
    simp only [List.nil_append]
    have hjson : ("json".data).isPrefixOf (w ++ lbrace :: (m ++ rbrace :: u)) = false := by
      by_contra hcon
      rw [Bool.not_eq_false] at hcon
      obtain ⟨r2, hr2⟩ := (prefixOf_exists _ _).mp hcon
      rw [hjchars] at hr2
      cases w with
      | nil =>
        simp only [List.nil_append, List.cons_append, List.cons.injEq] at hr2
        exact absurd hr2.1 (by decide)
      | cons x xs =>
        have hx : pyWs x = true := hw x (List.mem_cons_self x xs)
        simp only [List.cons_append, List.cons.injEq] at hr2
        exact absurd (hr2.1 ▸ hx) (by decide)
    rw [if_neg (by simp [hjson])]
    exact matchAtTail_isSome w m u hw hcl
  | inr hjs =>
    subst hjs
    have hjson : ("json".data).isPrefixOf
        ("json".data ++ (w ++ lbrace :: (m ++ rbrace :: u))) = true :=
      (prefixOf_exists _ _).mpr ⟨_, rfl⟩
    rw [if_pos hjson]
    have hd4 : ("json".data ++ (w ++ lbrace :: (m ++ rbrace :: u))).drop 4
        = w ++ lbrace :: (m ++ rbrace :: u) := List.drop_left' rfl
    rw [hd4]
    exact matchAtTail_isSome w m u hw hcl

/-- Helper: if the search fails, no suffix matches. -/
theorem reSearch_none_spec : ∀ t, reSearch t = none → ∀ s c, s <:+ t → ¬ MatchHead s c := by
  intro t
  induction t with
  | nil =>
    intro _h s c hs hm
    rw [List.suffix_nil.mp hs] at hm
    obtain ⟨j, w, m, u, _, _, hdec, _, _, _⟩ := hm
    simp [tq] at hdec
  | cons a t ih =>
    intro h s c hs hm
    have hma : matchAt (a :: t) = none := by
      cases hcase : matchAt (a :: t) with
      | none => rfl
      | some r => rw [reSearch, hcase] at h; cases h
    have ht : reSearch t = none := by rw [reSearch, hma] at h; exact h
    rcases List.suffix_cons_iff.mp hs with rfl | hs'
    · obtain ⟨r, hr⟩ := matchAt_isSome_of_matchHead _ _ hm
      rw [hma] at hr; cases hr
    · exact ih ht s c hs' hm

/-- Helper: a successful search returns the leftmost match (longest
matching suffix). -/
theorem reSearch_some_spec : ∀ t c, reSearch t = some c →
    ∃ s, s <:+ t ∧ MatchHead s c ∧
      ∀ s2 c2, s2 <:+ t → MatchHead s2 c2 → s2.length ≤ s.length := by
  intro t
  induction t with
  | nil => intro c h; cases h
  | cons a t ih =>
    intro c h
    cases hma : matchAt (a :: t) with
    | some r =>
      rw [reSearch, hma] at h
      obtain ⟨rfl⟩ := Option.some.inj h
      exact ⟨a :: t, List.suffix_refl _, matchAt_sound _ _ hma,
        fun s2 c2 hs2 _ => hs2.length_le⟩
    | none =>
      rw [reSearch, hma] at h
      obtain ⟨s, hs, hm, hmin⟩ := ih c h
      refine ⟨s, hs.trans (List.suffix_cons a t), hm, ?_⟩
      intro s2 c2 hs2 hm2
      rcases List.suffix_cons_iff.mp hs2 with rfl | hs2'
      · obtain ⟨r, hr⟩ := matchAt_isSome_of_matchHead _ _ hm2
        rw [hma] at hr; cases hr
      · exact hmin s2 c2 hs2' hm2

/-- Helper: a suffix starting with the fence marker makes the quoted
substring test true. -/
theorem containsTq_of_tq_suffix : ∀ t s r : List Char, s <:+ t → s = tq ++ r →
    containsTq t = true := by
  intro t
  induction t with
  | nil =>
    intro s r hs hr
    rw [List.suffix_nil.mp hs] at hr
    simp [tq] at hr
  | cons a t ih =>
    intro s r hs hr
    rcases List.suffix_cons_iff.mp hs with rfl | hs'
    · have hpre : tq.isPrefixOf (a :: t) = true := (prefixOf_exists _ _).mpr ⟨r, hr⟩
      rw [containsTq, hpre, Bool.true_or]
    · rw [containsTq, ih s r hs' hr, Bool.or_true]

/-- Helper: the fence step keeps the text when the regex fails. -/
theorem mdStrip_none (t : List Char) (h : reSearch t = none) : mdStrip t = t := by
  by_cases hc : containsTq t = true
  · rw [mdStrip, if_pos hc, h]
  · rw [mdStrip, if_neg hc]

/-- Helper: the fence step returns the capture when the regex matches. -/
theorem mdStrip_some (t c : List Char) (h : reSearch t = some c) : mdStrip t = c := by
  obtain ⟨s, hs, hm, _⟩ := reSearch_some_spec t c h
  obtain ⟨j, w, m, u, _, _, hdec, _, _, _⟩ := hm
  have hct : containsTq t = true :=
    containsTq_of_tq_suffix t s (j ++ w ++ (lbrace :: m) ++ rbrace :: u) hs
      (by rw [hdec]; simp [List.append_assoc])
  rw [mdStrip, if_pos hct, h]

/-- C4 amended: the fence step applies one leftmost non-greedy pattern
over the whole text: a fence marker, an optional json info string,
whitespace, then a left brace; the capture runs from that brace to the
first right brace that is followed by optional whitespace and a fence
marker, which may lie beyond the first closing fence.  If the pattern
matches at no suffix, the original text is kept. -/
theorem C4_amended_fence_capture (t : List Char) :
    (reSearch t = none → mdStrip t = t ∧ ∀ s c, s <:+ t → ¬ MatchHead s c) ∧
    (∀ c, reSearch t = some c → mdStrip t = c ∧
      ∃ s, s <:+ t ∧ MatchHead s c ∧
        ∀ s2 c2, s2 <:+ t → MatchHead s2 c2 → s2.length ≤ s.length) := by
  constructor
  · intro h
    exact ⟨mdStrip_none t h, reSearch_none_spec t h⟩
  · intro c h
    exact ⟨mdStrip_some t c h, reSearch_some_spec t c h⟩

/-- C4 as stated is false: on this text the only complete fence has body
starting with a left brace but containing no right brace, so by the
claimed behaviour the extractor would keep the original text; the code
instead captures across the first closing fence, returning a fragment
that itself contains a full fence marker. -/
theorem C4_counterexample :
    mdStrip c4input ≠ (specFenceContent c4input).getD c4input ∧
    containsTq (mdStrip c4input) = true := by
  constructor
  · decide
  · decide

/-- Witness for C4 amended on a well-formed json fence. -/
theorem C4_amended_witness : mdStrip c4good = lbrace :: 'a' :: [rbrace] := by
  exact ((C4_amended_fence_capture c4good).2 (lbrace :: 'a' :: [rbrace]) (by decide)).1

/-- Helper: stripping whitespace in front of a non-whitespace head only
shortens the prefix. -/
theorem dropWhile_nonws_head (pre : List Char) (hd : Char) (hh : pyWs hd = false)
    (Y : List Char) :
    ∃ pre1, (pre ++ hd :: Y).dropWhile pyWs = pre1 ++ hd :: Y ∧ ∀ c ∈ pre1, c ∈ pre := by
  rw [List.dropWhile_append]
  by_cases he : (pre.dropWhile pyWs).isEmpty = true
  · rw [if_pos he]
    exact ⟨[], by simp [List.dropWhile_cons, hh], by simp⟩
  · rw [if_neg he]
    exact ⟨pre.dropWhile pyWs, rfl, fun c hc => (List.dropWhile_sublist pyWs).subset hc⟩

/-- Helper: Python strip only shortens the prose on both sides of a
brace-delimited region. -/
theorem pyStrip_decomp (pre mid post : List Char) :
    ∃ pre2 post2, pyStrip (pre ++ lbrace :: (mid ++ rbrace :: post))
        = pre2 ++ lbrace :: (mid ++ rbrace :: post2) ∧
      (∀ c ∈ pre2, c ∈ pre) ∧ (∀ c ∈ post2, c ∈ post) := by
  obtain ⟨pre1, h1, hpre1⟩ :=
    dropWhile_nonws_head pre lbrace rfl (mid ++ rbrace :: post)
  obtain ⟨post1, h3, hpost1⟩ :=
    dropWhile_nonws_head post.reverse rbrace rfl (mid.reverse ++ lbrace :: pre1.reverse)
  refine ⟨pre1, post1.reverse, ?_, hpre1, ?_⟩
  · unfold pyStrip
    rw [h1]
    have hrev1 : (pre1 ++ lbrace :: (mid ++ rbrace :: post)).reverse
        = post.reverse ++ rbrace :: (mid.reverse ++ lbrace :: pre1.reverse) := by
      simp [List.reverse_append, List.append_assoc]
    rw [hrev1, h3]
    simp [List.reverse_append, List.append_assoc]
  · intro c hc
    rw [List.mem_reverse] at hc
    have := hpost1 c hc
    rwa [List.mem_reverse] at this

/-- Helper: with a single brace region and brace-free prose, a
successful fence match must capture exactly the region. -/
theorem mdStrip_single_region (pre mid post : List Char)
    (hpre : ∀ c ∈ pre, c ≠ lbrace ∧ c ≠ rbrace)
    (hmid : ∀ c ∈ mid, c ≠ lbrace ∧ c ≠ rbrace)
    (hpost : ∀ c ∈ post, c ≠ lbrace ∧ c ≠ rbrace) :
    mdStrip (pre ++ lbrace :: (mid ++ rbrace :: post))
        = pre ++ lbrace :: (mid ++ rbrace :: post) ∨
    mdStrip (pre ++ lbrace :: (mid ++ rbrace :: post)) = lbrace :: (mid ++ [rbrace]) := by
  cases hre : reSearch (pre ++ lbrace :: (mid ++ rbrace :: post)) with
  | none => exact Or.inl (mdStrip_none _ hre)
  | some c =>
    right
    rw [mdStrip_some _ c hre]
    obtain ⟨s, hs, hm, _⟩ := reSearch_some_spec _ c hre
    obtain ⟨j, w, m, u, _hj, _hw, hdec, _hcl, hcap, _hmin⟩ := hm
    have h1 : s = (tq ++ j ++ w) ++ (lbrace :: (m ++ rbrace :: u)) := by
      rw [hdec]; simp [List.append_assoc]
    have hsuf : lbrace :: (m ++ rbrace :: u) <:+ pre ++ lbrace :: (mid ++ rbrace :: post) :=
      (h1 ▸ List.suffix_append _ _).trans hs
    obtain ⟨a, ha⟩ := hsuf
    have hlpre : lbrace ∉ pre := fun hmem => (hpre lbrace hmem).1 rfl
    have hlnotY : lbrace ∉ mid ++ rbrace :: post := by
      intro hmem
      rcases List.mem_append.mp hmem with hY1 | hY2
      · exact (hmid lbrace hY1).1 rfl
      · rcases List.mem_cons.mp hY2 with hY3 | hY4
        · exact absurd hY3 (by decide)
        · exact (hpost lbrace hY4).1 rfl
    obtain ⟨_ha2, hX⟩ := split_at_unique lbrace pre a _ _ ha hlpre hlnotY
    have hrmid : rbrace ∉ mid := fun hmem => (hmid rbrace hmem).2 rfl
    have hrpost : rbrace ∉ post := fun hmem => (hpost rbrace hmem).2 rfl
    obtain ⟨hmmid, _huu⟩ := split_at_unique rbrace mid m u post hX hrmid hrpost
    rw [hcap, hmmid]
    rfl

/-- Helper: the depth scan at depth one through brace-free content stops
at the closing brace. -/
theorem depthScan_flat (post : List Char) : ∀ mid : List Char,
    (∀ c ∈ mid, c ≠ lbrace ∧ c ≠ rbrace) →
    depthScan (mid ++ rbrace :: post) 1 = some (mid ++ [rbrace]) := by
  intro mid
  induction mid with
  | nil =>
    intro _
    rw [List.nil_append]
    simp only [depthScan]
    rw [if_neg (show ¬(rbrace = lbrace) by decide), if_pos trivial,
      if_pos (show (1 : Int) - 1 = 0 by norm_num)]
    rfl
  | cons c mid ih =>
    intro h
    have hc := h c (List.mem_cons_self c mid)
    rw [List.cons_append]
    simp only [depthScan]
    rw [if_neg hc.1, if_neg hc.2, ih (fun x hx => h x (List.mem_cons_of_mem c hx))]
    simp

/-- Helper: the depth scan from the opening brace of a flat region
returns exactly the region. -/
theorem depthScan_region (mid post : List Char)
    (hmid : ∀ c ∈ mid, c ≠ lbrace ∧ c ≠ rbrace) :
    depthScan (lbrace :: (mid ++ rbrace :: post)) 0 = some (lbrace :: (mid ++ [rbrace])) := by
  simp only [depthScan, if_pos rfl]
  norm_num
  rw [depthScan_flat post mid hmid]

/-- Helper: the find step jumps over brace-free prose to the region. -/
theorem dropWhile_to_lbrace (pre Y : List Char) (h : ∀ c ∈ pre, c ≠ lbrace) :
    (pre ++ lbrace :: Y).dropWhile (fun c => c != lbrace) = lbrace :: Y := by
  rw [List.dropWhile_append_of_pos (fun a ha => by simpa using h a ha)]
  simp [List.dropWhile_cons]

/-- C5: for text that is exactly one balanced brace region (a left
brace, brace-free content, a right brace) surrounded by brace-free
prose, and whose region parses, extraction returns the region's parsed
content, whether or not the fence step fires inside the prose. -/
theorem C5_extraction_single_region (pre mid post : List Char) (v : JValue)
    (hpre : ∀ c ∈ pre, c ≠ lbrace ∧ c ≠ rbrace)
    (hmid : ∀ c ∈ mid, c ≠ lbrace ∧ c ≠ rbrace)
    (hpost : ∀ c ∈ post, c ≠ lbrace ∧ c ≠ rbrace)
    (hparse : jsonLoads (lbrace :: (mid ++ [rbrace])) = some v) :
    extractJson (pre ++ lbrace :: (mid ++ rbrace :: post)) = some v := by
  obtain ⟨pre2, post2, hstrip, hpre2, hpost2⟩ := pyStrip_decomp pre mid post
  have hpre2' : ∀ c ∈ pre2, c ≠ lbrace ∧ c ≠ rbrace := fun c hc => hpre c (hpre2 c hc)
  have hpost2' : ∀ c ∈ post2, c ≠ lbrace ∧ c ≠ rbrace := fun c hc => hpost c (hpost2 c hc)
  have hmd := mdStrip_single_region pre2 mid post2 hpre2' hmid hpost2'
  unfold extractJson braceCandidate
  rw [hstrip]
  cases hmd with
  | inl heq =>
    rw [heq]
    dsimp only
    rw [dropWhile_to_lbrace pre2 _ (fun c hc => (hpre2' c hc).1)]
    dsimp only
    rw [depthScan_region mid post2 hmid]
    exact hparse
  | inr heq =>
    rw [heq]
    dsimp only
    have hdw : (lbrace :: (mid ++ [rbrace])).dropWhile (fun c => c != lbrace)
        = lbrace :: (mid ++ [rbrace]) := by
      simp [List.dropWhile_cons]
    rw [hdw]
    dsimp only
    rw [depthScan_region mid [] hmid]
    exact hparse

/-- Witness for C5 on brace-free prose around a one-field object. -/
theorem C5_witness :
    extractJson (("note ".data) ++ lbrace :: (("\"a\": 1".data) ++ rbrace :: (" end".data)))
      = some (JValue.obj [("a".data, JValue.num ("1".data))]) :=
  C5_extraction_single_region ("note ".data) ("\"a\": 1".data) (" end".data)
    (JValue.obj [("a".data, JValue.num ("1".data))])
    (by decide) (by decide) (by decide) rfl

/-- Helper: stripping only removes characters. -/
theorem mem_pyStrip {c : Char} {s : List Char} (h : c ∈ pyStrip s) : c ∈ s := by
  unfold pyStrip at h
  rw [List.mem_reverse] at h
  have h2 := (List.dropWhile_sublist pyWs).subset h
  rw [List.mem_reverse] at h2
  exact (List.dropWhile_sublist pyWs).subset h2

/-- Helper: a successful fence match needs a right brace in the text. -/
theorem rbrace_mem_of_reSearch_some (t c : List Char) (h : reSearch t = some c) :
    rbrace ∈ t := by
  obtain ⟨s, hs, hm, _⟩ := reSearch_some_spec t c h
  obtain ⟨j, w, m, u, _, _, hdec, _, _, _⟩ := hm
  have hmem : rbrace ∈ s := by rw [hdec]; simp
  exact hs.subset hmem

/-- Helper: the depth scan cannot close without a right brace. -/
theorem depthScan_none : ∀ s : List Char, (∀ c ∈ s, c ≠ rbrace) → ∀ d, depthScan s d = none := by
  intro s
  induction s with
  | nil => intro _ d; rfl
  | cons c rest ih =>
    intro h d
    have hc : c ≠ rbrace := h c (List.mem_cons_self c rest)
    have ih2 := ih (fun x hx => h x (List.mem_cons_of_mem c hx))
    simp only [depthScan]
    by_cases hcl : c = lbrace
    · rw [if_pos hcl, ih2 (d + 1)]; rfl
    · rw [if_neg hcl, if_neg hc, ih2 d]; rfl

/-- C6: the Response Extractor is a total function into an option (never
raises): on text with no closing brace at all (in particular a single
trailing open brace) it signals no object, and when the candidate region
fails to parse it signals no object rather than propagating the decode
error. -/
theorem C6_extractor_totality :
    (∀ t : List Char, (∀ c ∈ t, c ≠ rbrace) → extractJson t = none) ∧
    (∀ t cand, braceCandidate t = some cand → jsonLoads cand = none → extractJson t = none) := by
  constructor
  · intro t ht
    unfold extractJson braceCandidate
    have hns : ∀ c ∈ pyStrip t, c ≠ rbrace := fun c hc => ht c (mem_pyStrip hc)
    have hre : reSearch (pyStrip t) = none := by
      cases hcase : reSearch (pyStrip t) with
      | none => rfl
      | some cc =>
        exact absurd rfl (hns rbrace (rbrace_mem_of_reSearch_some _ cc hcase))
    rw [mdStrip_none _ hre]
    dsimp only
    cases hdw : (pyStrip t).dropWhile (fun c => c != lbrace) with
    | nil => rfl
    | cons c0 s0 =>
      have hsub : ∀ c ∈ c0 :: s0, c ≠ rbrace := by
        intro c hc
        rw [← hdw] at hc
        exact hns c ((List.dropWhile_sublist _).subset hc)
      dsimp only
      rw [depthScan_none (c0 :: s0) hsub 0]
      rfl
  · intro t cand h1 h2
    unfold extractJson
    rw [h1]
    exact h2

/-- Witness for C6 at a single trailing open brace. -/
theorem C6_witness : extractJson ("abc\x7b".data) = none :=
  C6_extractor_totality.1 ("abc\x7b".data) (by decide)
